import Mathlib

/-!
Shallow embedding of the core logic of the pageindex-js client library:

* the tree indexer (`createNodeMapping`, `getAllNodes` from `src/utils.ts`),
* the field filter (`removeFields` from `src/utils.ts`),
* the SSE stream decoder (`streamText`, `streamRaw` from the client file),
  together with a model of the JavaScript `JSON.parse` it calls.

Trees, JSON values and byte chunks are modelled as inductive data; JavaScript
objects used as dictionaries are modelled as ordered association lists with
JavaScript assignment semantics (overwrite in place, append new keys).
-/

/-! ## Tree data model (src/types.ts)

`TreeNode` carries the three fields the indexing code reads: `node_id`
(optional string), `page_index` (optional integer) and `nodes` (children).
Extra passthrough fields play no role in any indexing claim and are omitted. -/

inductive TreeNode : Type where
  | mk : Option String → Option Int → List TreeNode → TreeNode

def TreeNode.node_id : TreeNode → Option String
  | .mk i _ _ => i

def TreeNode.page_index : TreeNode → Option Int
  | .mk _ p _ => p

def TreeNode.nodes : TreeNode → List TreeNode
  | .mk _ _ ns => ns

instance : Inhabited TreeNode := ⟨.mk none none []⟩

/-- PageRangeInfo (src/types.ts): node plus derived start and end page. -/
structure PageRangeInfo where
  node : TreeNode
  start_index : Option Int
  end_index : Option Int

/-- JavaScript truthiness of the optional `node_id` string, as used by
`if (node.node_id)`: `undefined` and the empty string are falsy. -/
def idTruthy : Option String → Bool
  | none => false
  | some s => !(s == "")

/-- The key a node is inserted under when its id is truthy. -/
def idKey (n : TreeNode) : String := n.node_id.getD ""

/-! ## JavaScript object as an ordered dictionary

`map[key] = value` on a plain JS object overwrites the value in place when the
key is already present and appends a new key otherwise; property lookup finds
the unique entry for the key. -/

def jsAssign {β : Type} (m : List (String × β)) (k : String) (v : β) :
    List (String × β) :=
  if m.any (fun p => p.1 == k) then
    m.map (fun p => if p.1 == k then (k, v) else p)
  else m ++ [(k, v)]

def jsGet {β : Type} : List (String × β) → String → Option β
  | [], _ => none
  | p :: rest, k => if p.1 == k then some p.2 else jsGet rest k

/-! ## getAllNodes (src/utils.ts lines 85-92)

`getAllNodes` flattens a tree (or an array of trees, via `flatMap`) in
pre-order: the node itself first, then the flattening of each child in listed
order.  `getAllNodesL` is the array case. -/

mutual

def getAllNodes : TreeNode → List TreeNode
  | .mk i p ns => .mk i p ns :: getAllNodesL ns

def getAllNodesL : List TreeNode → List TreeNode
  | [] => []
  | t :: ts => getAllNodes t ++ getAllNodesL ts

end

/-! ## createNodeMapping (src/utils.ts lines 50-83)

The source takes `tree: TreeNode | TreeNode[]`; a single tree behaves exactly
as the one-element list, so the model takes the list form.  The two values of
`includePageRanges` return different value types and are modelled as two
functions. -/

/-- createNodeMapping with `includePageRanges = false`: insert every node with
a truthy `node_id` under that id, in traversal order. -/
def createNodeMapping (tree : List TreeNode) : List (String × TreeNode) :=
  (getAllNodesL tree).foldl
    (fun map node => if idTruthy node.node_id then jsAssign map (idKey node) node else map)
    []

/-- The `PageRangeInfo` built for position `i` of the flattened list:
`start_index` is the node's own `page_index`; `end_index` is the `page_index`
of the node at position `i+1` when it exists, else the supplied `maxPage`. -/
def rangeEntry (allNodes : List TreeNode) (maxPage : Option Int) (i : Nat) :
    PageRangeInfo :=
  ⟨allNodes.getD i default, (allNodes.getD i default).page_index,
    if i + 1 < allNodes.length then (allNodes.getD (i + 1) default).page_index
    else maxPage⟩

/-- createNodeMapping with `includePageRanges = true`: the indexed loop over
the flattened node list, skipping nodes whose id is falsy. -/
def createNodeMappingRanges (tree : List TreeNode) (maxPage : Option Int) :
    List (String × PageRangeInfo) :=
  (List.range (getAllNodesL tree).length).foldl
    (fun map i =>
      if idTruthy ((getAllNodesL tree).getD i default).node_id then
        jsAssign map (idKey ((getAllNodesL tree).getD i default))
          (rangeEntry (getAllNodesL tree) maxPage i)
      else map)
    []

/-! ## Paths: an independent description of canonical pre-order

A path is the list of child indices leading from a root to a node.  `pathLt`
is the canonical pre-order on paths: a node precedes its descendants (proper
prefix), and otherwise paths are ordered by the child index at the first
divergence.  `allPaths` lists the paths of every node of a tree and `nodeAt`
resolves a path; these are used to characterise `getAllNodes`. -/

def pathLt : List Nat → List Nat → Prop
  | _, [] => False
  | [], _ :: _ => True
  | a :: p, b :: q => a < b ∨ (a = b ∧ pathLt p q)

def shiftPath : List Nat → List Nat
  | [] => []
  | j :: q => (j + 1) :: q

mutual

def allPaths : TreeNode → List (List Nat)
  | .mk _ _ ns => [] :: allPathsL ns

def allPathsL : List TreeNode → List (List Nat)
  | [] => []
  | t :: ts => (allPaths t).map (fun q => 0 :: q) ++ (allPathsL ts).map shiftPath

end

mutual

def nodeAt : TreeNode → List Nat → Option TreeNode
  | t, [] => some t
  | .mk _ _ ns, j :: q => nodeAtL ns (j :: q)

def nodeAtL : List TreeNode → List Nat → Option TreeNode
  | [], _ => none
  | _ :: _, [] => none
  | t :: _, 0 :: q => nodeAt t q
  | _ :: ts, (j + 1) :: q => nodeAtL ts (j :: q)

end

/-! ## JSON values

Model of the JavaScript values produced by `JSON.parse`.  Strings are lists of
characters; numbers keep their source token (the client code only ever tests a
number for truthiness, i.e. non-zero). -/

inductive JValue : Type where
  | null : JValue
  | bool : Bool → JValue
  | num : List Char → JValue
  | str : List Char → JValue
  | arr : List JValue → JValue
  | obj : List (List Char × JValue) → JValue

/-! Characters that are awkward as literals are named. -/

def quoteChar : Char := Char.ofNat 34

def backslashChar : Char := Char.ofNat 92

def lbraceChar : Char := Char.ofNat 123

def rbraceChar : Char := Char.ofNat 125

def lbrackChar : Char := Char.ofNat 91

def rbrackChar : Char := Char.ofNat 93

def nlChar : Char := Char.ofNat 10

/-- JavaScript `String.prototype.trim` whitespace, restricted to the ASCII
whitespace characters that can occur in an SSE stream. -/
def wsChar (c : Char) : Bool :=
  c == ' ' || c == Char.ofNat 9 || c == nlChar || c == Char.ofNat 13 ||
    c == Char.ofNat 11 || c == Char.ofNat 12

def skipWs (s : List Char) : List Char := s.dropWhile wsChar

/-- `text.trim()` on a character list. -/
def trimChars (s : List Char) : List Char :=
  ((s.dropWhile wsChar).reverse.dropWhile wsChar).reverse

/-- `text.split("\n")` on a character list: JavaScript `split` keeps empty
pieces, and splitting the empty string gives one empty piece. -/
def splitNl : List Char → List (List Char)
  | [] => [[]]
  | c :: cs =>
    if c == nlChar then [] :: splitNl cs
    else
      match splitNl cs with
      | [] => [[c]]
      | l :: ls => (c :: l) :: ls

/-- `line.startsWith(lead)` on character lists. -/
def hasLead : List Char → List Char → Bool
  | [], _ => true
  | _ :: _, [] => false
  | a :: p, b :: l => a == b && hasLead p l

/-! ## A model of JavaScript JSON.parse

Recursive-descent parser over character lists, following the JSON grammar
accepted by `JSON.parse` (strings with escapes, numbers, literals, arrays,
objects, insignificant whitespace; the whole input must be consumed).  Fuel
makes structural recursion explicit; `jsonParse` supplies enough for any
input. -/

def escChar (c : Char) : Option Char :=
  if c == quoteChar then some quoteChar
  else if c == backslashChar then some backslashChar
  else if c == '/' then some '/'
  else if c == 'n' then some nlChar
  else if c == 't' then some (Char.ofNat 9)
  else if c == 'r' then some (Char.ofNat 13)
  else if c == 'b' then some (Char.ofNat 8)
  else if c == 'f' then some (Char.ofNat 12)
  else none

def hexVal (c : Char) : Option Nat :=
  if c.isDigit then some (c.toNat - 48)
  else if 'a' ≤ c && c ≤ 'f' then some (c.toNat - 87)
  else if 'A' ≤ c && c ≤ 'F' then some (c.toNat - 55)
  else none

def parseStringBody : Nat → List Char → Option (List Char × List Char)
  | 0, _ => none
  | _ + 1, [] => none
  | fuel + 1, c :: cs =>
    if c == quoteChar then some ([], cs)
    else if c == backslashChar then
      match cs with
      | [] => none
      | e :: cs2 =>
        if e == 'u' then
          match cs2 with
          | h1 :: h2 :: h3 :: h4 :: cs3 =>
            match hexVal h1, hexVal h2, hexVal h3, hexVal h4 with
            | some a, some b, some c4, some d =>
              (parseStringBody fuel cs3).map
                (fun r => (Char.ofNat (((a * 16 + b) * 16 + c4) * 16 + d) :: r.1, r.2))
            | _, _, _, _ => none
          | _ => none
        else
          match escChar e with
          | some ec => (parseStringBody fuel cs2).map (fun r => (ec :: r.1, r.2))
          | none => none
    else (parseStringBody fuel cs).map (fun r => (c :: r.1, r.2))

/-- Longest leading run of decimal digits. -/
def digitsTok : List Char → List Char × List Char
  | [] => ([], [])
  | c :: cs =>
    if c.isDigit then
      let r := digitsTok cs
      (c :: r.1, r.2)
    else ([], c :: cs)

/-- JSON integer part: `0`, or a nonzero digit followed by digits. -/
def intTok : List Char → Option (List Char × List Char)
  | [] => none
  | c :: cs =>
    if c == '0' then some ([c], cs)
    else if c.isDigit then
      let r := digitsTok cs
      some (c :: r.1, r.2)
    else none

/-- Optional JSON fraction part `.digits`. -/
def fracTok : List Char → List Char × List Char
  | [] => ([], [])
  | c :: cs =>
    if c == '.' then
      match cs with
      | d :: _ =>
        if d.isDigit then
          let r := digitsTok cs
          (c :: r.1, r.2)
        else ([], c :: cs)
      | [] => ([], c :: cs)
    else ([], c :: cs)

/-- Optional JSON exponent part `(e|E)(+|-)?digits`. -/
def expTok : List Char → List Char × List Char
  | [] => ([], [])
  | c :: cs =>
    if c == 'e' || c == 'E' then
      match cs with
      | s :: rest =>
        if s == '+' || s == '-' then
          match rest with
          | d :: _ =>
            if d.isDigit then
              let r := digitsTok rest
              (c :: s :: r.1, r.2)
            else ([], c :: cs)
          | [] => ([], c :: cs)
        else if s.isDigit then
          let r := digitsTok cs
          (c :: r.1, r.2)
        else ([], c :: cs)
      | [] => ([], c :: cs)
    else ([], c :: cs)

/-- A complete JSON number token. -/
def numToken : List Char → Option (List Char × List Char)
  | [] => none
  | c :: cs =>
    if c == '-' then
      match intTok cs with
      | some (it, rest) =>
        let f := fracTok rest
        let e := expTok f.2
        some (c :: (it ++ f.1 ++ e.1), e.2)
      | none => none
    else
      match intTok (c :: cs) with
      | some (it, rest) =>
        let f := fracTok rest
        let e := expTok f.2
        some (it ++ f.1 ++ e.1, e.2)
      | none => none

def trueTok : List Char := "true".toList

def falseTok : List Char := "false".toList

def nullTok : List Char := "null".toList

mutual

def parseValue : Nat → List Char → Option (JValue × List Char)
  | 0, _ => none
  | fuel + 1, s =>
    match skipWs s with
    | [] => none
    | c :: cs =>
      if c == quoteChar then
        (parseStringBody fuel cs).map (fun r => (.str r.1, r.2))
      else if c == lbraceChar then
        match skipWs cs with
        | d :: ds =>
          if d == rbraceChar then some (.obj [], ds)
          else (parseMembers fuel (d :: ds)).map (fun r => (.obj r.1, r.2))
        | [] => none
      else if c == lbrackChar then
        match skipWs cs with
        | d :: ds =>
          if d == rbrackChar then some (.arr [], ds)
          else (parseElems fuel (d :: ds)).map (fun r => (.arr r.1, r.2))
        | [] => none
      else if hasLead trueTok (c :: cs) then some (.bool true, (c :: cs).drop 4)
      else if hasLead falseTok (c :: cs) then some (.bool false, (c :: cs).drop 5)
      else if hasLead nullTok (c :: cs) then some (.null, (c :: cs).drop 4)
      else (numToken (c :: cs)).map (fun r => (.num r.1, r.2))

def parseMembers : Nat → List Char → Option (List (List Char × JValue) × List Char)
  | 0, _ => none
  | fuel + 1, s =>
    match skipWs s with
    | [] => none
    | c :: cs =>
      if c == quoteChar then
        match parseStringBody fuel cs with
        | some (k, rest) =>
          match skipWs rest with
          | d :: ds =>
            if d == ':' then
              match parseValue fuel ds with
              | some (v, rest2) =>
                match skipWs rest2 with
                | e :: es =>
                  if e == ',' then
                    (parseMembers fuel es).map (fun r => ((k, v) :: r.1, r.2))
                  else if e == rbraceChar then some ([(k, v)], es)
                  else none
                | [] => none
              | none => none
            else none
          | [] => none
        | none => none
      else none

def parseElems : Nat → List Char → Option (List JValue × List Char)
  | 0, _ => none
  | fuel + 1, s =>
    match parseValue fuel s with
    | some (v, rest) =>
      match skipWs rest with
      | e :: es =>
        if e == ',' then (parseElems fuel es).map (fun r => (v :: r.1, r.2))
        else if e == rbrackChar then some ([v], es)
        else none
      | [] => none
    | none => none

end

/-- JSON.parse: parse one value and require only whitespace to remain. -/
def jsonParse (s : List Char) : Option JValue :=
  match parseValue (2 * s.length + 2) s with
  | some (v, rest) => if (skipWs rest).isEmpty then some v else none
  | none => none

/-! ## Stream decoding (streamText / streamRaw)

A run of the decoder is modelled on the list of text chunks produced by
`decoder.decode(value)` for the successive byte chunks; the source decodes and
line-splits each chunk independently.  `textYields`/`rawYields` process the
lines of one chunk, returning the values yielded and whether the `[DONE]`
sentinel caused an early return. -/

def dataLead : List Char := "data: ".toList

def doneMark : List Char := "[DONE]".toList

/-- Property lookup on a parsed JS object: with `JSON.parse`, a duplicated key
keeps the last occurrence. -/
def jLookup : List (List Char × JValue) → List Char → Option JValue
  | [], _ => none
  | (k, v) :: kvs, key =>
    match jLookup kvs key with
    | some r => some r
    | none => if k == key then some v else none

def choicesKey : List Char := "choices".toList

def deltaKey : List Char := "delta".toList

def contentKey : List Char := "content".toList

/-- Is the mantissa of a number token zero (JS falsy)? -/
def numIsZero (tok : List Char) : Bool :=
  ((tok.dropWhile (fun c => c == '-')).takeWhile
      (fun c => c.isDigit || c == '.')).all
    (fun c => c == '0' || c == '.')

/-- JavaScript truthiness of a JSON value. -/
def truthyJ : JValue → Bool
  | .null => false
  | .bool b => b
  | .num tok => !(numIsZero tok)
  | .str s => !s.isEmpty
  | .arr _ => true
  | .obj _ => true

/-- `chunk.choices?.[0]?.delta?.content ?? ""`: optional chaining down the
content path, with `""` when the path is absent or `null`. -/
def contentOf (j : JValue) : JValue :=
  match j with
  | .obj kvs =>
    match jLookup kvs choicesKey with
    | some (.arr (c0 :: _)) =>
      match c0 with
      | .obj ckvs =>
        match jLookup ckvs deltaKey with
        | some (.obj dkvs) =>
          match jLookup dkvs contentKey with
          | some .null => .str []
          | some v => v
          | none => .str []
        | _ => .str []
      | _ => .str []
    | _ => .str []
  | _ => .str []

/-- One chunk of `streamText`'s line loop: values yielded, and whether
`[DONE]` returned early. -/
def textYields : List (List Char) → List JValue × Bool
  | [] => ([], false)
  | line :: rest =>
    if hasLead dataLead line then
      if trimChars (line.drop 6) == doneMark then ([], true)
      else
        match jsonParse (trimChars (line.drop 6)) with
        | some j =>
          if truthyJ (contentOf j) then
            (contentOf j :: (textYields rest).1, (textYields rest).2)
          else textYields rest
        | none => textYields rest
    else textYields rest

/-- The full sequence yielded by `streamText` over the chunk list. -/
def streamText : List (List Char) → List JValue
  | [] => []
  | chunk :: chunks =>
    if (textYields (splitNl chunk)).2 then (textYields (splitNl chunk)).1
    else (textYields (splitNl chunk)).1 ++ streamText chunks

/-- One chunk of `streamRaw`'s line loop. -/
def rawYields : List (List Char) → List JValue × Bool
  | [] => ([], false)
  | line :: rest =>
    if hasLead dataLead line then
      if trimChars (line.drop 6) == doneMark then ([], true)
      else
        match jsonParse (trimChars (line.drop 6)) with
        | some j => (j :: (rawYields rest).1, (rawYields rest).2)
        | none => rawYields rest
    else rawYields rest

/-- The full sequence yielded by `streamRaw` over the chunk list. -/
def streamRaw : List (List Char) → List JValue
  | [] => []
  | chunk :: chunks =>
    if (rawYields (splitNl chunk)).2 then (rawYields (splitNl chunk)).1
    else (rawYields (splitNl chunk)).1 ++ streamRaw chunks

/-! ## removeFields (src/utils.ts lines 5-33)

Arrays are mapped, objects drop the named fields and recurse, strings are
truncated when a limit is given, all other scalars pass through. -/

def ellipsisChars : List Char := "...".toList

mutual

def removeFields : JValue → List (List Char) → Option Nat → JValue
  | .arr items, fields, maxLen => .arr (removeFieldsArr items fields maxLen)
  | .obj kvs, fields, maxLen => .obj (removeFieldsObj kvs fields maxLen)
  | .str s, _, maxLen =>
    match maxLen with
    | some m => if m < s.length then .str (s.take m ++ ellipsisChars) else .str s
    | none => .str s
  | v, _, _ => v

def removeFieldsArr : List JValue → List (List Char) → Option Nat → List JValue
  | [], _, _ => []
  | x :: xs, fields, maxLen =>
    removeFields x fields maxLen :: removeFieldsArr xs fields maxLen

def removeFieldsObj :
    List (List Char × JValue) → List (List Char) → Option Nat →
      List (List Char × JValue)
  | [], _, _ => []
  | (k, v) :: kvs, fields, maxLen =>
    if fields.contains k then removeFieldsObj kvs fields maxLen
    else (k, removeFields v fields maxLen) :: removeFieldsObj kvs fields maxLen

end

/-- The string truncation applied by `removeFields` at each string scalar. -/
def truncStr (m : Nat) (s : List Char) : List Char :=
  if m < s.length then s.take m ++ ellipsisChars else s

/-! All string scalars of a value, in traversal order. -/

mutual

def jStrings : JValue → List (List Char)
  | .str s => [s]
  | .arr items => jStringsArr items
  | .obj kvs => jStringsObj kvs
  | _ => []

def jStringsArr : List JValue → List (List Char)
  | [] => []
  | x :: xs => jStrings x ++ jStringsArr xs

def jStringsObj : List (List Char × JValue) → List (List Char)
  | [] => []
  | (_, v) :: kvs => jStrings v ++ jStringsObj kvs

end

/-! ## Concrete inputs used in counterexamples and witnesses -/

/-- A root-level node with id `a` and page 1. -/
def nodeA : TreeNode := .mk (some "a") (some 1) []

/-- A node with no id and page 5. -/
def nodeNoId : TreeNode := .mk none (some 5) []

/-- A node whose id is the empty string, page 5. -/
def nodeEmptyId : TreeNode := .mk (some "") (some 5) []

/-- Forest whose last flattened node has no id. -/
def cForest : List TreeNode := [nodeA, nodeNoId]

/-- Forest whose last flattened node has the empty-string id. -/
def eForest : List TreeNode := [nodeA, nodeEmptyId]

/-- The example tree of the specification: root `r` page 1 with children
`a` page 1 and `b` page 3. -/
def demoForest : List TreeNode :=
  [.mk (some "r") (some 1) [.mk (some "a") (some 1) [], .mk (some "b") (some 3) []]]

/-- First half of an SSE frame split mid-line between two byte chunks. -/
def chunkHeadPart : List Char := "data: \x7b\"choices\":[\x7b\"delta\":\x7b\"con".toList

/-- Second half of the split SSE frame. -/
def chunkTailPart : List Char := "tent\":\"A\"\x7d\x7d]\x7d\n".toList

/-- A well-formed chunk: one content frame, then the done sentinel. -/
def demoChunk : List Char :=
  "data: \x7b\"choices\":[\x7b\"delta\":\x7b\"content\":\"A\"\x7d\x7d]\x7d\ndata: [DONE]\n".toList

/-- A chunk starting with a malformed frame, then a valid frame, then done. -/
def notJsonChunk : List Char :=
  "data: not-json\ndata: \x7b\"choices\":[\x7b\"delta\":\x7b\"content\":\"A\"\x7d\x7d]\x7d\ndata: [DONE]\n".toList


/-! # Theorems

Helper lemmas about the dictionary model first, then one theorem per
specification claim (with a witness or counterexample where required). -/

theorem jsGet_map_repl_self {β : Type} (k : String) (v : β) :
    ∀ m : List (String × β), m.any (fun p => p.1 == k) = true →
      jsGet (m.map (fun p => if p.1 == k then (k, v) else p)) k = some v
  | [], h => by simp at h
  | p :: rest, h => by
    by_cases hp : (p.1 == k) = true
    · simp [jsGet, hp]
    · rw [List.map_cons, if_neg hp]
      simp only [jsGet, hp, if_false]
      refine jsGet_map_repl_self k v rest ?_
      simpa [List.any_cons, hp] using h

theorem jsGet_map_repl_ne {β : Type} (k k' : String) (v : β) (hkk : (k == k') = false) :
    ∀ m : List (String × β),
      jsGet (m.map (fun p => if p.1 == k then (k, v) else p)) k' = jsGet m k'
  | [] => rfl
  | p :: rest => by
    by_cases hp : (p.1 == k) = true
    · have hpk : p.1 = k := by simpa [beq_iff_eq] using hp
      rw [List.map_cons, if_pos hp]
      simp only [jsGet, hkk, hpk, if_false]
      exact jsGet_map_repl_ne k k' v hkk rest
    · rw [List.map_cons, if_neg hp]
      by_cases hq : (p.1 == k') = true
      · simp [jsGet, hq]
      · simp only [jsGet, hq, if_false]
        exact jsGet_map_repl_ne k k' v hkk rest

theorem jsGet_append_single_self {β : Type} (k : String) (v : β) :
    ∀ m : List (String × β), m.any (fun p => p.1 == k) = false →
      jsGet (m ++ [(k, v)]) k = some v
  | [], _ => by simp [jsGet]
  | p :: rest, h => by
    have hp : (p.1 == k) = false := by
      cases hc : (p.1 == k) with
      | true => rw [List.any_cons, hc] at h; simp at h
      | false => rfl
    rw [List.cons_append]
    simp only [jsGet, hp, if_false]
    refine jsGet_append_single_self k v rest ?_
    rw [List.any_cons, hp] at h
    simpa using h

theorem jsGet_append_single_ne {β : Type} (k k' : String) (v : β)
    (hkk : (k == k') = false) :
    ∀ m : List (String × β), jsGet (m ++ [(k, v)]) k' = jsGet m k'
  | [] => by simp [jsGet, hkk]
  | p :: rest => by
    rw [List.cons_append]
    by_cases hq : (p.1 == k') = true
    · simp [jsGet, hq]
    · simp only [jsGet, hq, if_false]
      exact jsGet_append_single_ne k k' v hkk rest

theorem jsGet_assign_self {β : Type} (m : List (String × β)) (k : String) (v : β) :
    jsGet (jsAssign m k v) k = some v := by
  unfold jsAssign
  by_cases h : m.any (fun p => p.1 == k) = true
  · rw [if_pos h]
    exact jsGet_map_repl_self k v m h
  · rw [if_neg h]
    exact jsGet_append_single_self k v m (Bool.eq_false_iff.mpr h)

theorem jsGet_assign_ne {β : Type} (m : List (String × β)) (k k' : String) (v : β)
    (hkk : k' ≠ k) : jsGet (jsAssign m k v) k' = jsGet m k' := by
  have hbeq : (k == k') = false := by
    simp only [beq_eq_false_iff_ne]
    exact fun h => hkk h.symm
  unfold jsAssign
  by_cases h : m.any (fun p => p.1 == k) = true
  · rw [if_pos h]
    exact jsGet_map_repl_ne k k' v hbeq m
  · rw [if_neg h]
    exact jsGet_append_single_ne k k' v hbeq m

theorem mem_of_getLast?_eq {α : Type} {l : List α} {a : α}
    (h : l.getLast? = some a) : a ∈ l := by
  have hx : a ∈ l.getLast? := by rw [h]; exact Option.mem_def.mpr rfl
  obtain ⟨hne, hEq⟩ := List.mem_getLast?_eq_getLast hx
  rw [hEq]
  exact List.getLast_mem hne

theorem jsGet_foldl_assign {β γ : Type} (p : γ → Bool) (key : γ → String) (val : γ → β) :
    ∀ (xs : List γ) (m : List (String × β)) (k : String),
      jsGet (xs.foldl (fun acc x => if p x then jsAssign acc (key x) (val x) else acc) m) k =
        ((xs.filter (fun x => p x && (key x == k))).getLast?).elim (jsGet m k)
          (fun x => some (val x))
  | [], m, k => by simp
  | x :: xs, m, k => by
    rw [List.foldl_cons, jsGet_foldl_assign p key val xs _ k]
    by_cases hq : (p x && (key x == k)) = true
    · have hp : p x = true := ((Bool.and_eq_true _ _) ▸ hq).1
      have hkey : key x = k := by
        have hk := ((Bool.and_eq_true _ _) ▸ hq).2
        simpa [beq_iff_eq] using hk
      rw [show (x :: xs).filter (fun x => p x && (key x == k)) =
          x :: xs.filter (fun x => p x && (key x == k)) from List.filter_cons_of_pos hq]
      cases hl : (xs.filter (fun x => p x && (key x == k))).getLast? with
      | none =>
        have hnil : xs.filter (fun x => p x && (key x == k)) = [] :=
          List.getLast?_eq_none_iff.mp hl
        rw [hnil, List.getLast?_singleton]
        simp only [Option.elim, if_pos hp]
        rw [hkey, jsGet_assign_self]
      | some y =>
        cases hfl : xs.filter (fun x => p x && (key x == k)) with
        | nil => rw [hfl] at hl; simp at hl
        | cons a l =>
          rw [hfl] at hl
          rw [List.getLast?_cons_cons, hl]
          rfl
    · rw [show (x :: xs).filter (fun x => p x && (key x == k)) =
          xs.filter (fun x => p x && (key x == k)) from
        List.filter_cons_of_neg (by simpa using hq)]
      have hstep : jsGet (if p x then jsAssign m (key x) (val x) else m) k = jsGet m k := by
        by_cases hp : p x = true
        · rw [if_pos hp]
          refine jsGet_assign_ne m (key x) k (val x) ?_
          intro hc
          exact hq (by simp [hp, hc])
        · rw [if_neg hp]
      rw [hstep]

theorem jsAssign_distinct {β : Type} {m : List (String × β)} (k : String) (v : β)
    (h : m.Pairwise (fun a b => a.1 ≠ b.1)) :
    (jsAssign m k v).Pairwise (fun a b => a.1 ≠ b.1) := by
  unfold jsAssign
  by_cases hany : m.any (fun p => p.1 == k) = true
  · rw [if_pos hany]
    refine h.map _ (fun a b hab => ?_)
    by_cases ha : (a.1 == k) = true <;> by_cases hb : (b.1 == k) = true <;>
      simp_all [beq_iff_eq]
  · rw [if_neg hany]
    rw [List.pairwise_append]
    refine ⟨h, List.pairwise_singleton _ _, ?_⟩
    intro a ha b hb
    have hb' : b = (k, v) := by simpa using hb
    subst hb'
    have hfa := List.any_eq_false.mp (Bool.eq_false_iff.mpr hany) a ha
    simpa [beq_iff_eq] using hfa

theorem foldl_assign_distinct {β γ : Type} (p : γ → Bool) (key : γ → String)
    (val : γ → β) :
    ∀ (xs : List γ) (m : List (String × β)),
      m.Pairwise (fun a b => a.1 ≠ b.1) →
      (xs.foldl (fun acc x => if p x then jsAssign acc (key x) (val x) else acc)
          m).Pairwise (fun a b => a.1 ≠ b.1)
  | [], _, h => h
  | x :: xs, m, h => by
    rw [List.foldl_cons]
    refine foldl_assign_distinct p key val xs _ ?_
    by_cases hp : p x = true
    · rw [if_pos hp]
      exact jsAssign_distinct _ _ h
    · rw [if_neg hp]
      exact h

theorem idPred_iff (n : TreeNode) (s : String) :
    (idTruthy n.node_id && (idKey n == s)) = true ↔ n.node_id = some s ∧ s ≠ "" := by
  cases n with
  | mk i pg ns =>
    cases i with
    | none => simp [idTruthy, idKey, TreeNode.node_id]
    | some t =>
      simp only [TreeNode.node_id, idTruthy, idKey, Option.getD_some, Bool.and_eq_true,
        Bool.not_eq_true', beq_eq_false_iff_ne, beq_iff_eq, Option.some.injEq]
      constructor
      · rintro ⟨h1, h2⟩
        subst h2
        exact ⟨rfl, h1⟩
      · rintro ⟨h1, h2⟩
        subst h1
        exact ⟨h2, rfl⟩

/-- Claim C3: flatten-to-map (`createNodeMapping`) produces exactly one entry
per distinct node_id occurring in the forest and no entry for a node lacking
one: its keys are pairwise distinct, and key `s` is present exactly when some
traversed node carries `node_id = some s` with `s` non-empty (ids JavaScript
treats as absent contribute nothing). -/
theorem claim_C3 (f : List TreeNode) (s : String) :
    (createNodeMapping f).Pairwise (fun a b => a.1 ≠ b.1) ∧
      ((jsGet (createNodeMapping f) s).isSome = true ↔
        ∃ n ∈ getAllNodesL f, n.node_id = some s ∧ s ≠ "") := by
  constructor
  · exact foldl_assign_distinct _ _ _ (getAllNodesL f) [] List.Pairwise.nil
  · have hfold : jsGet (createNodeMapping f) s =
        (((getAllNodesL f).filter
            (fun n => idTruthy n.node_id && (idKey n == s))).getLast?).elim
          (jsGet ([] : List (String × TreeNode)) s) (fun n => some n) :=
      jsGet_foldl_assign (fun n : TreeNode => idTruthy n.node_id) idKey (fun n => n)
        (getAllNodesL f) [] s
    rw [hfold]
    cases hlast : ((getAllNodesL f).filter
        (fun n => idTruthy n.node_id && (idKey n == s))).getLast? with
    | none =>
      have hnil := List.getLast?_eq_none_iff.mp hlast
      simp only [Option.elim, jsGet, Option.isSome_none, Bool.false_eq_true, false_iff]
      rintro ⟨n, hn, hid, hs⟩
      have hmem : n ∈ (getAllNodesL f).filter
          (fun n => idTruthy n.node_id && (idKey n == s)) :=
        List.mem_filter.mpr ⟨hn, (idPred_iff n s).mpr ⟨hid, hs⟩⟩
      rw [hnil] at hmem
      simp at hmem
    | some n0 =>
      have hmem := List.mem_filter.mp (mem_of_getLast?_eq hlast)
      exact ⟨fun _ => ⟨n0, hmem.1, (idPred_iff n0 s).mp hmem.2⟩, fun _ => rfl⟩

theorem idFilter_eq (all : List TreeNode) (s : String) (hs : s ≠ "") :
    all.filter (fun n => idTruthy n.node_id && (idKey n == s)) =
      all.filter (fun n => n.node_id == some s) := by
  refine List.filter_congr (fun n _ => ?_)
  cases n with
  | mk i pg ns =>
    cases i with
    | none => simp [idTruthy, idKey, TreeNode.node_id]
    | some t =>
      simp only [TreeNode.node_id, idTruthy, idKey, Option.getD_some]
      by_cases ht : (t == s) = true
      · have : t = s := by simpa [beq_iff_eq] using ht
        subst this
        simp [beq_iff_eq, hs]
      · have hf : (t == s) = false := Bool.eq_false_iff.mpr ht
        simp [hf]

theorem map_getD_range {α : Type} (d : α) (l : List α) :
    (List.range l.length).map (fun i => l.getD i d) = l := by
  apply List.ext_getElem
  · simp
  · intro i h1 h2
    simp [List.getD, List.getElem?_eq_getElem h2]

theorem range_filter_getLast {α : Type} (d : α) (l : List α) (q : α → Bool) :
    (((List.range l.length).filter (fun i => q (l.getD i d))).getLast?).map
        (fun i => l.getD i d) = (l.filter q).getLast? := by
  rw [show l.filter q =
      (((List.range l.length).map (fun i => l.getD i d)).filter q) from by
    rw [map_getD_range]]
  rw [List.filter_map (fun i => l.getD i d) (List.range l.length)]
  rw [List.getLast?_map]
  rfl

/-- Claim C5: when the same node_id occurs on several nodes, both
flatten-to-map and flatten-to-page-ranges bind the id to the occurrence
latest in pre-order traversal order (last write wins): the looked-up entry
is the last traversed node carrying that id. -/
theorem claim_C5 (f : List TreeNode) (P : Option Int) (s : String) (hs : s ≠ "") :
    jsGet (createNodeMapping f) s =
      ((getAllNodesL f).filter (fun n => n.node_id == some s)).getLast? ∧
    (jsGet (createNodeMappingRanges f P) s).map (fun e => e.node) =
      ((getAllNodesL f).filter (fun n => n.node_id == some s)).getLast? := by
  have hfe := idFilter_eq (getAllNodesL f) s hs
  constructor
  · have hfold : jsGet (createNodeMapping f) s =
        (((getAllNodesL f).filter
            (fun n => idTruthy n.node_id && (idKey n == s))).getLast?).elim
          (jsGet ([] : List (String × TreeNode)) s) (fun n => some n) :=
      jsGet_foldl_assign (fun n : TreeNode => idTruthy n.node_id) idKey (fun n => n)
        (getAllNodesL f) [] s
    rw [hfold, hfe]
    cases h2 : ((getAllNodesL f).filter (fun n => n.node_id == some s)).getLast? with
    | none => rfl
    | some n => rfl
  · have hfoldR : jsGet (createNodeMappingRanges f P) s =
        (((List.range (getAllNodesL f).length).filter
            (fun i => idTruthy ((getAllNodesL f).getD i default).node_id &&
              (idKey ((getAllNodesL f).getD i default) == s))).getLast?).elim
          (jsGet ([] : List (String × PageRangeInfo)) s)
          (fun i => some (rangeEntry (getAllNodesL f) P i)) :=
      jsGet_foldl_assign
        (fun i => idTruthy ((getAllNodesL f).getD i default).node_id)
        (fun i => idKey ((getAllNodesL f).getD i default))
        (fun i => rangeEntry (getAllNodesL f) P i)
        (List.range (getAllNodesL f).length) [] s
    have hrange := range_filter_getLast (default : TreeNode) (getAllNodesL f)
      (fun n => idTruthy n.node_id && (idKey n == s))
    rw [hfe] at hrange
    rw [hfoldR]
    cases hlast : ((List.range (getAllNodesL f).length).filter
        (fun i => idTruthy ((getAllNodesL f).getD i default).node_id &&
          (idKey ((getAllNodesL f).getD i default) == s))).getLast? with
    | none =>
      rw [hlast] at hrange
      rw [← hrange]
      rfl
    | some i =>
      rw [hlast] at hrange
      rw [← hrange]
      rfl

/-- Witness for claim C5 at a forest with a duplicated id: the entry bound to
`a` is the second (later) node in both map forms. -/
theorem claim_C5_witness :
    jsGet (createNodeMapping [TreeNode.mk (some "a") (some 1) [],
        TreeNode.mk (some "a") (some 7) []]) "a" =
      some (TreeNode.mk (some "a") (some 7) []) ∧
    (jsGet (createNodeMappingRanges [TreeNode.mk (some "a") (some 1) [],
        TreeNode.mk (some "a") (some 7) []] (some 9)) "a").map (fun e => e.node) =
      some (TreeNode.mk (some "a") (some 7) []) := by
  have h := claim_C5 [TreeNode.mk (some "a") (some 1) [],
    TreeNode.mk (some "a") (some 7) []] (some 9) "a" (by decide)
  exact ⟨h.1.trans rfl, h.2.trans rfl⟩

/-- Claim C1 as stated is refuted on `cForest`, where the last flattened node
has no node_id: the last-traversed node with an id (`nodeA`, at position 0)
gets `end_index` from its pre-order successor's `page_index` (5), not from
the supplied max_page (10). -/
theorem claim_C1_counterexample :
    ((getAllNodesL cForest).filter (fun n => idTruthy n.node_id)).getLast? =
      some nodeA ∧
    (jsGet (createNodeMappingRanges cForest (some 10)) "a").map
        (fun e => e.end_index) = some (some 5) ∧
    some (some (5 : Int)) ≠ some (some (10 : Int)) := by
  refine ⟨rfl, rfl, by simp⟩

/-- Claim C1 (amended): each emitted entry has `start_index` equal to its
node's own `page_index` and `end_index` equal to the `page_index` of the node
at the next position of the full pre-order flattening; the entry emitted from
the final position gets `end_index = maxPage`, which is unset when no
max_page is supplied.  `i` is the position of the latest occurrence of the
key `s`, matching the map's last-write-wins binding. -/
theorem claim_C1_amended (f : List TreeNode) (P : Option Int) (s : String) (i : Nat)
    (hlast : ((List.range (getAllNodesL f).length).filter
        (fun j => idTruthy ((getAllNodesL f).getD j default).node_id &&
          (idKey ((getAllNodesL f).getD j default) == s))).getLast? = some i) :
    jsGet (createNodeMappingRanges f P) s =
      some ⟨(getAllNodesL f).getD i default,
        ((getAllNodesL f).getD i default).page_index,
        if i + 1 < (getAllNodesL f).length
        then ((getAllNodesL f).getD (i + 1) default).page_index else P⟩ := by
  have hfoldR : jsGet (createNodeMappingRanges f P) s =
      (((List.range (getAllNodesL f).length).filter
          (fun j => idTruthy ((getAllNodesL f).getD j default).node_id &&
            (idKey ((getAllNodesL f).getD j default) == s))).getLast?).elim
        (jsGet ([] : List (String × PageRangeInfo)) s)
        (fun j => some (rangeEntry (getAllNodesL f) P j)) :=
    jsGet_foldl_assign
      (fun j => idTruthy ((getAllNodesL f).getD j default).node_id)
      (fun j => idKey ((getAllNodesL f).getD j default))
      (fun j => rangeEntry (getAllNodesL f) P j)
      (List.range (getAllNodesL f).length) [] s
  rw [hfoldR, hlast]
  rfl

/-- Witness for the amended claim C1 on the specification's example tree:
the entry for `b` (last position) spans from its own page 3 to max_page 10. -/
theorem claim_C1_witness :
    jsGet (createNodeMappingRanges demoForest (some 10)) "b" =
      some ⟨TreeNode.mk (some "b") (some 3) [], some 3, some 10⟩ := by
  have h := claim_C1_amended demoForest (some 10) "b" 2 (by decide)
  exact h.trans rfl

theorem rangesFold_congr (x y : TreeNode) (tail : List TreeNode) (P : Option Int)
    (hx : idTruthy x.node_id = false) (hy : idTruthy y.node_id = false) :
    (List.range (x :: tail).length).foldl
      (fun map i =>
        if idTruthy ((x :: tail).getD i default).node_id then
          jsAssign map (idKey ((x :: tail).getD i default))
            (rangeEntry (x :: tail) P i)
        else map) [] =
    (List.range (y :: tail).length).foldl
      (fun map i =>
        if idTruthy ((y :: tail).getD i default).node_id then
          jsAssign map (idKey ((y :: tail).getD i default))
            (rangeEntry (y :: tail) P i)
        else map) [] := by
  simp only [List.length_cons]
  rw [List.range_succ_eq_map]
  rw [List.foldl_cons, List.foldl_cons]
  simp only [List.getD_cons_zero, hx, Bool.false_eq_true, if_false, hy]
  rw [List.foldl_map, List.foldl_map]
  apply List.foldl_ext
  intro acc j hj
  simp only [Nat.succ_eq_add_one, List.getD_cons_succ]
  by_cases ht : idTruthy ((tail.getD j default)).node_id = true
  · rw [if_pos ht, if_pos ht]
    have hentry : rangeEntry (x :: tail) P (j + 1) = rangeEntry (y :: tail) P (j + 1) := by
      unfold rangeEntry
      simp [List.getD_cons_succ, List.length_cons]
    rw [hentry]
  · rw [if_neg ht, if_neg ht]

theorem emptyKey_pred_false (n : TreeNode) :
    (idTruthy n.node_id && (idKey n == "")) = false := by
  cases n with
  | mk i pg ns =>
    cases i with
    | none => rfl
    | some t =>
      simp only [TreeNode.node_id, idTruthy, idKey, Option.getD_some]
      cases ht : (t == "") with
      | true => simp [ht]
      | false => simp [ht]

/-- Claim C10: a node whose node_id is the empty string contributes no entry
to either map (keys are never the empty string, and replacing an
empty-string id by an absent one changes neither output), while the node
still occupies a position of the flattening: when it sits at position `i+1`,
the entry emitted at position `i` takes its `end_index` from that node's
`page_index`. -/
theorem claim_C10 (f : List TreeNode) (P : Option Int) (pg : Option Int)
    (ns rest : List TreeNode) (s : String) (i : Nat) :
    jsGet (createNodeMapping f) "" = none ∧
    jsGet (createNodeMappingRanges f P) "" = none ∧
    createNodeMapping (TreeNode.mk (some "") pg ns :: rest) =
      createNodeMapping (TreeNode.mk none pg ns :: rest) ∧
    createNodeMappingRanges (TreeNode.mk (some "") pg ns :: rest) P =
      createNodeMappingRanges (TreeNode.mk none pg ns :: rest) P ∧
    (((List.range (getAllNodesL f).length).filter
        (fun j => idTruthy ((getAllNodesL f).getD j default).node_id &&
          (idKey ((getAllNodesL f).getD j default) == s))).getLast? = some i →
      i + 1 < (getAllNodesL f).length →
      ((getAllNodesL f).getD (i + 1) default).node_id = some "" →
      (jsGet (createNodeMappingRanges f P) s).map (fun e => e.end_index) =
        some (((getAllNodesL f).getD (i + 1) default).page_index)) := by
  refine ⟨?_, ?_, ?_, ?_, ?_⟩
  · have hfold : jsGet (createNodeMapping f) "" =
        (((getAllNodesL f).filter
            (fun n => idTruthy n.node_id && (idKey n == ""))).getLast?).elim
          (jsGet ([] : List (String × TreeNode)) "") (fun n => some n) :=
      jsGet_foldl_assign (fun n : TreeNode => idTruthy n.node_id) idKey (fun n => n)
        (getAllNodesL f) [] ""
    rw [hfold]
    rw [List.filter_eq_nil_iff.mpr
      (fun n _ => by simp only [Bool.not_eq_true]; exact emptyKey_pred_false n)]
    rfl
  · have hfoldR : jsGet (createNodeMappingRanges f P) "" =
        (((List.range (getAllNodesL f).length).filter
            (fun j => idTruthy ((getAllNodesL f).getD j default).node_id &&
              (idKey ((getAllNodesL f).getD j default) == ""))).getLast?).elim
          (jsGet ([] : List (String × PageRangeInfo)) "")
          (fun j => some (rangeEntry (getAllNodesL f) P j)) :=
      jsGet_foldl_assign
        (fun j => idTruthy ((getAllNodesL f).getD j default).node_id)
        (fun j => idKey ((getAllNodesL f).getD j default))
        (fun j => rangeEntry (getAllNodesL f) P j)
        (List.range (getAllNodesL f).length) [] ""
    rw [hfoldR]
    rw [List.filter_eq_nil_iff.mpr
      (fun j _ => by
        simp only [Bool.not_eq_true]
        exact emptyKey_pred_false ((getAllNodesL f).getD j default))]
    rfl
  · rfl
  · have hsplitE : getAllNodesL (TreeNode.mk (some "") pg ns :: rest) =
        TreeNode.mk (some "") pg ns :: (getAllNodesL ns ++ getAllNodesL rest) := by
      simp [getAllNodesL, getAllNodes]
    have hsplitN : getAllNodesL (TreeNode.mk none pg ns :: rest) =
        TreeNode.mk none pg ns :: (getAllNodesL ns ++ getAllNodesL rest) := by
      simp [getAllNodesL, getAllNodes]
    unfold createNodeMappingRanges
    rw [hsplitE, hsplitN]
    exact rangesFold_congr _ _ _ P rfl rfl
  · intro hlast hlt hid
    have hfoldR : jsGet (createNodeMappingRanges f P) s =
        (((List.range (getAllNodesL f).length).filter
            (fun j => idTruthy ((getAllNodesL f).getD j default).node_id &&
              (idKey ((getAllNodesL f).getD j default) == s))).getLast?).elim
          (jsGet ([] : List (String × PageRangeInfo)) s)
          (fun j => some (rangeEntry (getAllNodesL f) P j)) :=
      jsGet_foldl_assign
        (fun j => idTruthy ((getAllNodesL f).getD j default).node_id)
        (fun j => idKey ((getAllNodesL f).getD j default))
        (fun j => rangeEntry (getAllNodesL f) P j)
        (List.range (getAllNodesL f).length) [] s
    rw [hfoldR, hlast]
    show some (rangeEntry (getAllNodesL f) P i).end_index = _
    unfold rangeEntry
    rw [if_pos hlt]

/-- Witness for claim C10 on `eForest`: the empty-id node is absent from the
map but its page 5 becomes the `end_index` of the entry for `a`. -/
theorem claim_C10_witness :
    (jsGet (createNodeMappingRanges eForest (some 10)) "a").map
        (fun e => e.end_index) = some (some 5) := by
  have h := (claim_C10 eForest (some 10) none [] [] "a" 0).2.2.2.2
  exact h (by decide) (by decide) (by decide)

theorem allPathsL_ne_nil : ∀ (ns : List TreeNode), ∀ q ∈ allPathsL ns, q ≠ []
  | [], q, hq => by simp [allPathsL] at hq
  | t :: ts, q, hq => by
    simp only [allPathsL] at hq
    rcases List.mem_append.mp hq with h | h
    · obtain ⟨q0, hq0, rfl⟩ := List.mem_map.mp h
      simp
    · obtain ⟨q0, hq0, rfl⟩ := List.mem_map.mp h
      have hne := allPathsL_ne_nil ts q0 hq0
      cases q0 with
      | nil => exact absurd rfl hne
      | cons j q1 => simp [shiftPath]

mutual

theorem allPaths_nodeAt : ∀ t : TreeNode,
    (allPaths t).map (nodeAt t) = (getAllNodes t).map some
  | .mk i p ns => by
    simp only [allPaths, getAllNodes, List.map_cons]
    congr 1
    rw [← allPathsL_nodeAt ns]
    refine List.map_congr_left (fun q hq => ?_)
    cases q with
    | nil => exact absurd rfl (allPathsL_ne_nil ns [] hq)
    | cons j q1 => rfl

theorem allPathsL_nodeAt : ∀ ns : List TreeNode,
    (allPathsL ns).map (nodeAtL ns) = (getAllNodesL ns).map some
  | [] => rfl
  | t :: ts => by
    simp only [allPathsL, getAllNodesL, List.map_append, List.map_map]
    congr 1
    · rw [← allPaths_nodeAt t]
      exact List.map_congr_left (fun q hq => rfl)
    · rw [← allPathsL_nodeAt ts]
      refine List.map_congr_left (fun q hq => ?_)
      cases q with
      | nil => exact absurd rfl (allPathsL_ne_nil ts [] hq)
      | cons j q1 => rfl

end

mutual

theorem allPaths_pairwise : ∀ t : TreeNode, (allPaths t).Pairwise pathLt
  | .mk i p ns => by
    simp only [allPaths]
    rw [List.pairwise_cons]
    constructor
    · intro q hq
      cases q with
      | nil => exact absurd rfl (allPathsL_ne_nil ns [] hq)
      | cons b q1 => trivial
    · exact allPathsL_pairwise ns

theorem allPathsL_pairwise : ∀ ns : List TreeNode, (allPathsL ns).Pairwise pathLt
  | [] => List.Pairwise.nil
  | t :: ts => by
    simp only [allPathsL]
    rw [List.pairwise_append]
    refine ⟨?_, ?_, ?_⟩
    · exact (allPaths_pairwise t).map _ (fun a b hab => Or.inr ⟨rfl, hab⟩)
    · rw [List.pairwise_map]
      refine (allPathsL_pairwise ts).imp_of_mem (fun {a b} ha hb hab => ?_)
      cases a with
      | nil => exact absurd rfl (allPathsL_ne_nil ts [] ha)
      | cons j p1 =>
        cases b with
        | nil => exact absurd rfl (allPathsL_ne_nil ts [] hb)
        | cons k q1 =>
          rcases hab with h | ⟨h1, h2⟩
          · exact Or.inl (by omega)
          · exact Or.inr ⟨by omega, h2⟩
    · intro x hx y hy
      obtain ⟨q0, hq0, rfl⟩ := List.mem_map.mp hx
      obtain ⟨q1, hq1, rfl⟩ := List.mem_map.mp hy
      cases q1 with
      | nil => exact absurd rfl (allPathsL_ne_nil ts [] hq1)
      | cons k q2 => exact Or.inl (Nat.succ_pos k)

end

mutual

theorem nodeAt_mem_allPaths : ∀ (t : TreeNode) (q : List Nat),
    (nodeAt t q).isSome = true → q ∈ allPaths t
  | .mk i p ns, [], _ => by simp [allPaths]
  | .mk i p ns, j :: q, h => by
    simp only [allPaths]
    exact List.mem_cons_of_mem _ (nodeAtL_mem_allPathsL ns (j :: q) h)

theorem nodeAtL_mem_allPathsL : ∀ (ns : List TreeNode) (q : List Nat),
    (nodeAtL ns q).isSome = true → q ∈ allPathsL ns
  | [], q, h => by simp [nodeAtL] at h
  | t :: ts, [], h => by simp [nodeAtL] at h
  | t :: ts, 0 :: q, h => by
    simp only [allPathsL]
    exact List.mem_append.mpr
      (Or.inl (List.mem_map.mpr ⟨q, nodeAt_mem_allPaths t q h, rfl⟩))
  | t :: ts, (j + 1) :: q, h => by
    simp only [allPathsL]
    exact List.mem_append.mpr
      (Or.inr (List.mem_map.mpr ⟨j :: q, nodeAtL_mem_allPathsL ts (j :: q) h, rfl⟩))

end

/-- Claim C4: the flattened node list is in canonical pre-order.  The paths
of the nodes of `t` are listed by `allPaths` strictly increasing in the
pre-order ordering `pathLt` (a node before its descendants, siblings by
child index), resolving those paths gives exactly `getAllNodes t` in order,
every node of the tree is covered, and a forest is traversed root by root in
list order with each tree flattened completely before the next. -/
theorem claim_C4 (t : TreeNode) (ts : List TreeNode) :
    (allPaths t).map (nodeAt t) = (getAllNodes t).map some ∧
    (allPaths t).Pairwise pathLt ∧
    (∀ q : List Nat, (nodeAt t q).isSome = true → q ∈ allPaths t) ∧
    getAllNodesL (t :: ts) = getAllNodes t ++ getAllNodesL ts :=
  ⟨allPaths_nodeAt t, allPaths_pairwise t,
    fun q h => nodeAt_mem_allPaths t q h, by simp [getAllNodesL]⟩

/-- Witness for claim C4's coverage conjunct at a concrete tree and path. -/
theorem claim_C4_witness :
    (nodeAt (TreeNode.mk (some "r") (some 1) [TreeNode.mk (some "a") (some 1) []])
        [0]).isSome = true ∧
    [0] ∈ allPaths (TreeNode.mk (some "r") (some 1)
        [TreeNode.mk (some "a") (some 1) []]) :=
  ⟨by decide,
    (claim_C4 (TreeNode.mk (some "r") (some 1) [TreeNode.mk (some "a") (some 1) []])
        []).2.2.1 [0] (by decide)⟩

/-- Claim C2 is refuted by the code: the decoded output depends on where the
chunk boundaries fall.  The same bytes as one chunk yield the fragment `A`;
split mid-line into two chunks they yield nothing, because each read is
decoded and line-split independently with no cross-read buffering.  The same
divergence shows in raw mode via the output lengths. -/
theorem claim_C2_code_gap :
    streamText [chunkHeadPart ++ chunkTailPart] = [JValue.str ['A']] ∧
    streamText [chunkHeadPart, chunkTailPart] = [] ∧
    streamText [chunkHeadPart, chunkTailPart] ≠
      streamText [chunkHeadPart ++ chunkTailPart] ∧
    (streamRaw [chunkHeadPart ++ chunkTailPart]).length = 1 ∧
    (streamRaw [chunkHeadPart, chunkTailPart]).length = 0 := by
  refine ⟨rfl, rfl, ?_, rfl, rfl⟩
  intro h
  rw [show streamText [chunkHeadPart, chunkTailPart] = [] from rfl,
    show streamText [chunkHeadPart ++ chunkTailPart] = [JValue.str ['A']] from rfl] at h
  simp at h

/-- Claim C6: the demo byte sequence decodes to exactly the fragment `A` and
then terminates; in general a line whose payload trims to `[DONE]` ends the
line loop at once (no later line of the chunk is processed), and a chunk
whose processing hit `[DONE]` ends the whole stream (later chunks are never
read). -/
theorem claim_C6 :
    streamText [demoChunk] = [JValue.str ['A']] ∧
    (∀ (line : List Char) (rest : List (List Char)),
      hasLead dataLead line = true → trimChars (line.drop 6) = doneMark →
      textYields (line :: rest) = ([], true)) ∧
    (∀ (chunk : List Char) (chunks : List (List Char)),
      (textYields (splitNl chunk)).2 = true →
      streamText (chunk :: chunks) = (textYields (splitNl chunk)).1) := by
  refine ⟨rfl, ?_, ?_⟩
  · intro line rest h1 h2
    simp [textYields, h1, h2]
  · intro chunk chunks h
    simp [streamText, h]

/-- Witness for claim C6: a concrete `[DONE]` line stops the line loop with
the rest of the chunk unprocessed, and a concrete finished chunk makes the
stream ignore a following chunk. -/
theorem claim_C6_witness :
    textYields (("data: [DONE]".toList) :: [("data: x".toList)]) = ([], true) ∧
    streamText [demoChunk, "data: junk".toList] = (textYields (splitNl demoChunk)).1 := by
  constructor
  · exact claim_C6.2.1 ("data: [DONE]".toList) [("data: x".toList)]
      (by decide) (by decide)
  · exact claim_C6.2.2 demoChunk ["data: junk".toList] (by rfl)

/-- Claim C7: a `data: `-prefixed line whose payload is not valid JSON is
skipped silently in both text and raw mode — it contributes nothing and the
remaining lines decode as if it were absent — and on a concrete stream a
malformed frame is skipped while the following valid frame is still
yielded. -/
theorem claim_C7 :
    (∀ (line : List Char) (rest : List (List Char)),
      hasLead dataLead line = true →
      trimChars (line.drop 6) ≠ doneMark →
      jsonParse (trimChars (line.drop 6)) = none →
      textYields (line :: rest) = textYields rest ∧
      rawYields (line :: rest) = rawYields rest) ∧
    streamText [notJsonChunk] = [JValue.str ['A']] := by
  refine ⟨?_, rfl⟩
  intro line rest h1 h2 h3
  have hb : (trimChars (line.drop 6) == doneMark) = false := by
    simpa [beq_eq_false_iff_ne] using h2
  constructor
  · simp [textYields, h1, hb, h3]
  · simp [rawYields, h1, hb, h3]

/-- Witness for claim C7 at a concrete malformed line. -/
theorem claim_C7_witness :
    textYields (("data: not-json".toList) :: [("data: [DONE]".toList)]) =
      textYields [("data: [DONE]".toList)] ∧
    rawYields (("data: not-json".toList) :: [("data: [DONE]".toList)]) =
      rawYields [("data: [DONE]".toList)] :=
  claim_C7.1 ("data: not-json".toList) [("data: [DONE]".toList)]
    (by decide) (by decide) (by rfl)

mutual

theorem jStrings_rf : ∀ (v : JValue) (fields : List (List Char)) (m : Nat),
    jStrings (removeFields v fields (some m)) =
      (jStrings (removeFields v fields none)).map (truncStr m)
  | .null, _, _ => rfl
  | .bool _, _, _ => rfl
  | .num _, _, _ => rfl
  | .str s, fields, m => by
    simp only [removeFields]
    by_cases h : m < s.length
    · rw [if_pos h]
      simp [jStrings, truncStr, h]
    · rw [if_neg h]
      simp [jStrings, truncStr, h]
  | .arr items, fields, m => by
    simp only [removeFields, jStrings]
    exact jStringsArr_rf items fields m
  | .obj kvs, fields, m => by
    simp only [removeFields, jStrings]
    exact jStringsObj_rf kvs fields m

theorem jStringsArr_rf : ∀ (items : List JValue) (fields : List (List Char)) (m : Nat),
    jStringsArr (removeFieldsArr items fields (some m)) =
      (jStringsArr (removeFieldsArr items fields none)).map (truncStr m)
  | [], _, _ => rfl
  | x :: xs, fields, m => by
    simp only [removeFieldsArr, jStringsArr, List.map_append]
    rw [jStrings_rf x fields m, jStringsArr_rf xs fields m]

theorem jStringsObj_rf :
    ∀ (kvs : List (List Char × JValue)) (fields : List (List Char)) (m : Nat),
      jStringsObj (removeFieldsObj kvs fields (some m)) =
        (jStringsObj (removeFieldsObj kvs fields none)).map (truncStr m)
  | [], _, _ => rfl
  | (k, v) :: kvs, fields, m => by
    simp only [removeFieldsObj]
    by_cases h : fields.contains k
    · rw [if_pos h, if_pos h]
      exact jStringsObj_rf kvs fields m
    · rw [if_neg h, if_neg h]
      simp only [jStringsObj, List.map_append]
      rw [jStrings_rf v fields m, jStringsObj_rf kvs fields m]

end

/-- Claim C8: every string scalar reaching the filtered output is truncated
by the same rule, and that rule satisfies the truncation law: a string longer
than `max_len` comes out with length `max_len + 3` ending in the ellipsis, a
string at or under `max_len` is returned unchanged. -/
theorem claim_C8 (v : JValue) (fields : List (List Char)) (m : Nat) (s : List Char) :
    jStrings (removeFields v fields (some m)) =
      (jStrings (removeFields v fields none)).map (truncStr m) ∧
    removeFields (.str s) fields (some m) = .str (truncStr m s) ∧
    (m < s.length → (truncStr m s).length = m + 3 ∧
      List.IsSuffix ellipsisChars (truncStr m s)) ∧
    (s.length ≤ m → truncStr m s = s) := by
  refine ⟨jStrings_rf v fields m, ?_, ?_, ?_⟩
  · simp only [removeFields, truncStr]
    by_cases h : m < s.length
    · rw [if_pos h, if_pos h]
    · rw [if_neg h, if_neg h]
  · intro h
    unfold truncStr
    rw [if_pos h]
    constructor
    · have he : ellipsisChars.length = 3 := rfl
      rw [List.length_append, List.length_take, he,
        Nat.min_eq_left (Nat.le_of_lt h)]
    · exact ⟨s.take m, rfl⟩
  · intro h
    unfold truncStr
    rw [if_neg (by omega)]

/-- Witness for claim C8: the law evaluated on concrete strings. -/
theorem claim_C8_witness :
    (truncStr 2 ("abcdef".toList)).length = 2 + 3 ∧
    List.IsSuffix ellipsisChars (truncStr 2 ("abcdef".toList)) ∧
    truncStr 4 ("ab".toList) = "ab".toList := by
  have h1 := (claim_C8 JValue.null [] 2 ("abcdef".toList)).2.2.1 (by decide)
  have h2 := (claim_C8 JValue.null [] 4 ("ab".toList)).2.2.2 (by decide)
  exact ⟨h1.1, h1.2, h2⟩

mutual

theorem rf_idem : ∀ (v : JValue) (fields : List (List Char)) (maxLen : Option Nat),
    removeFields (removeFields v fields maxLen) fields maxLen =
      removeFields v fields maxLen
  | .null, _, _ => rfl
  | .bool _, _, _ => rfl
  | .num _, _, _ => rfl
  | .str s, fields, maxLen => by
    cases maxLen with
    | none => rfl
    | some m =>
      simp only [removeFields]
      by_cases h : m < s.length
      · rw [if_pos h]
        simp only [removeFields]
        have htl : (s.take m).length = m := by
          rw [List.length_take]
          exact Nat.min_eq_left (Nat.le_of_lt h)
        have he : ellipsisChars.length = 3 := rfl
        have hcond : m < (s.take m ++ ellipsisChars).length := by
          rw [List.length_append, htl, he]
          omega
        rw [if_pos hcond]
        congr 1
        rw [List.take_append_eq_append_take, htl, Nat.sub_self, List.take_zero,
          List.append_nil, List.take_of_length_le htl.le]
      · rw [if_neg h]
        simp only [removeFields]
        rw [if_neg h]
  | .arr items, fields, maxLen => by
    simp only [removeFields]
    exact congrArg JValue.arr (rfArr_idem items fields maxLen)
  | .obj kvs, fields, maxLen => by
    simp only [removeFields]
    exact congrArg JValue.obj (rfObj_idem kvs fields maxLen)

theorem rfArr_idem :
    ∀ (items : List JValue) (fields : List (List Char)) (maxLen : Option Nat),
      removeFieldsArr (removeFieldsArr items fields maxLen) fields maxLen =
        removeFieldsArr items fields maxLen
  | [], _, _ => rfl
  | x :: xs, fields, maxLen => by
    simp only [removeFieldsArr]
    rw [rf_idem x fields maxLen, rfArr_idem xs fields maxLen]

theorem rfObj_idem :
    ∀ (kvs : List (List Char × JValue)) (fields : List (List Char))
      (maxLen : Option Nat),
      removeFieldsObj (removeFieldsObj kvs fields maxLen) fields maxLen =
        removeFieldsObj kvs fields maxLen
  | [], _, _ => rfl
  | (k, v) :: kvs, fields, maxLen => by
    by_cases h : fields.contains k
    · simp only [removeFieldsObj]
      rw [if_pos h]
      exact rfObj_idem kvs fields maxLen
    · simp only [removeFieldsObj]
      rw [if_neg h]
      simp only [removeFieldsObj]
      rw [if_neg h]
      rw [rf_idem v fields maxLen, rfObj_idem kvs fields maxLen]

end

/-- Claim C9: the field filter is idempotent: re-filtering its own output
with the same field set and the same optional truncation length changes
nothing. -/
theorem claim_C9 (v : JValue) (fields : List (List Char)) (maxLen : Option Nat) :
    removeFields (removeFields v fields maxLen) fields maxLen =
      removeFields v fields maxLen :=
  rf_idem v fields maxLen
